import Mathlib

/-!
Shallow embedding of `src/Updater.py` (a client-side game updater) and proofs
about its version codec, chain resolver, package fetcher, patch applier and
update orchestrator.

Modelling conventions:
* Python strings are Lean `String`s; character-level work uses `List Char`.
* Python `int(...)` applied to a version segment is modelled by `pyIntSeg`
  (optional surrounding whitespace, optional sign, digits with single interior
  underscores), returning `Option Int`.
* Python list comparison on `List Int` is the lexicographic order `pyListLt`.
* The install root is an association list from relative paths (component
  lists) to file contents; directories exist implicitly.
* Exceptions are modelled by an environment of failure-injection flags; each
  function returns its result together with the warnings it appends to the
  global warning list and the trace of writes to the local version marker.
-/

namespace Updater

/-! ### Version codec (`parse_version`, `format_version`, Python list order) -/

/-- Whitespace characters stripped by Python `str.strip` (ASCII subset). -/
def isSpaceCh (c : Char) : Bool :=
  c == ' ' || c == '\t' || c == '\n' || c == '\r' || c == '\x0b' || c == '\x0c'

/-- ASCII decimal digit test. -/
def isDigitCh (c : Char) : Bool :=
  '0' ≤ c && c ≤ '9'

/-- Numeric value of a digit character. -/
def digitVal (c : Char) : Nat := c.toNat - '0'.toNat

/-- The decimal digit character for `n % 10`-style values. -/
def digitCh (n : Nat) : Char :=
  match n with
  | 0 => '0' | 1 => '1' | 2 => '2' | 3 => '3' | 4 => '4'
  | 5 => '5' | 6 => '6' | 7 => '7' | 8 => '8' | _ => '9'

/-- `str.strip()` on a character list: drop whitespace from both ends. -/
def pyStripChars (cs : List Char) : List Char :=
  ((cs.dropWhile isSpaceCh).reverse.dropWhile isSpaceCh).reverse

/-- `str.strip()` on a string. -/
def pyStrip (s : String) : String := ⟨pyStripChars s.data⟩

/-- Digit-run scanner for Python `int`: after an initial digit, digits may be
separated by single underscores; anything else fails. `acc` is the value of
the digits consumed so far. -/
def digitsGo (acc : Nat) : List Char → Option Nat
  | [] => some acc
  | c :: cs =>
    if c = '_' then
      match cs with
      | [] => none
      | d :: ds => if isDigitCh d then digitsGo (10 * acc + digitVal d) ds else none
    else if isDigitCh c then digitsGo (10 * acc + digitVal c) cs else none

/-- The digits (with optional interior underscores) of a Python integer
literal, evaluated to a `Nat`; `none` if the shape is invalid. -/
def digitsPart : List Char → Option Nat
  | [] => none
  | c :: cs => if isDigitCh c then digitsGo (digitVal c) cs else none

/-- Core of Python `int(text)` after whitespace stripping: optional sign,
then a digit run. -/
def pyIntCore : List Char → Option Int
  | [] => none
  | c :: cs =>
    if c = '-' then (digitsPart cs).map (fun n : Nat => -(n : Int))
    else if c = '+' then (digitsPart cs).map (fun n : Nat => (n : Int))
    else (digitsPart (c :: cs)).map (fun n : Nat => (n : Int))

/-- Python `int(segment)` for one version segment: strip whitespace, optional
sign, then a digit run. Note that a leading minus sign is accepted, so a
segment may parse to a negative integer. -/
def pyIntSeg (cs0 : List Char) : Option Int :=
  pyIntCore (pyStripChars cs0)

/-- `text.split(sep)` on character lists (single-character separator).
`splitOnChar sep [] = [[]]`, matching Python `"".split('.') == ['']`. -/
def splitOnChar (sep : Char) : List Char → List (List Char)
  | [] => [[]]
  | c :: cs =>
    if c = sep then [] :: splitOnChar sep cs
    else
      match splitOnChar sep cs with
      | [] => [[c]]
      | p :: ps => (c :: p) :: ps

/-- Sequential conversion of all segments with `int`, as in the list
comprehension `[int(part) for part in version_str.split('.')]`; the first
failing segment aborts with `none` (Python's `ValueError`). -/
def segInts : List (List Char) → Option (List Int)
  | [] => some []
  | x :: xs =>
    match pyIntSeg x, segInts xs with
    | some a, some as => some (a :: as)
    | _, _ => none

/-- `parse_version` from `src/Updater.py`: split on `'.'` and convert every
segment with `int`; any failing segment (a `ValueError`) yields `[]`. -/
def parse_version (s : String) : List Int :=
  match segInts (splitOnChar '.' s.data) with
  | some l => l
  | none => []

/-- Decimal digit characters of a natural number, most significant first. -/
def natChars (n : Nat) : List Char :=
  if _h : n < 10 then [digitCh n]
  else natChars (n / 10) ++ [digitCh (n % 10)]
decreasing_by exact Nat.div_lt_self (by omega) (by omega)

/-- Python `str(i)` for an integer: optional minus sign then digits. -/
def intChars (i : Int) : List Char :=
  if i < 0 then '-' :: natChars (-i).toNat else natChars i.toNat

/-- `'.'.join(pieces)` on character lists. -/
def icalChars (sep : Char) : List (List Char) → List Char
  | [] => []
  | [p] => p
  | p :: ps => p ++ sep :: icalChars sep ps

/-- `format_version` from `src/Updater.py`: `'.'.join(str(part) for part in l)`. -/
def format_version (l : List Int) : String :=
  ⟨icalChars '.' (l.map intChars)⟩

/-- Python `<` on lists of integers: lexicographic, a proper prefix is
smaller. -/
def pyListLt : List Int → List Int → Bool
  | _, [] => false
  | [], _ :: _ => true
  | a :: as, b :: bs => if a < b then true else if b < a then false else pyListLt as bs

/-- Python `<=` on lists of integers: `a < b` or `a = b`. -/
def pyListLe (a b : List Int) : Bool := pyListLt a b || a == b

/-- The loop body of `get_update_chain`: iterate the published list, skip
entries that fail to parse, keep those with `current < v <= target`. -/
def chainLoop (c t : List Int) : List String → List String
  | [] => []
  | v :: vs =>
    let p := parse_version v
    if p.isEmpty then chainLoop c t vs
    else if pyListLt c p && pyListLe p t then v :: chainLoop c t vs
    else chainLoop c t vs

/-- `get_update_chain` from `src/Updater.py`. -/
def get_update_chain (currentVersion targetVersion : String)
    (allVersions : List String) : List String :=
  let c := parse_version currentVersion
  let t := parse_version targetVersion
  if c.isEmpty || t.isEmpty then []
  else chainLoop c t allVersions

/-- Modelled from the spec's words for §4.2 ChainResolver, to be compared with
`get_update_chain`: "iterate `published` in its given order; keep every
element `v` such that `current < v <= target`"; an Invalid `current` or
`target` returns an empty chain, and entries that fail to parse are skipped. -/
def resolve_spec (current target : String) (published : List String) : List String :=
  if parse_version current = [] ∨ parse_version target = [] then []
  else published.filter (fun v =>
    !(parse_version v).isEmpty &&
      (pyListLt (parse_version current) (parse_version v) &&
        pyListLe (parse_version v) (parse_version target)))

/-- Value of a digit run, folded left with accumulator `acc`. -/
def valAcc (acc : Nat) (ds : List Char) : Nat :=
  ds.foldl (fun a c => 10 * a + digitVal c) acc

/-- Boolean prefix test on lists (used for directory containment of relative
paths and for version-segment prefixes). -/
def pfx {α : Type} [DecidableEq α] : List α → List α → Bool
  | [], _ => true
  | _ :: _, [] => false
  | a :: as, b :: bs => a == b && pfx as bs

/-! ### File-system model for the patch applier

The install root (`GAME_DIR`) is a list of (relative path, content) pairs;
relative paths are component lists and directories exist implicitly. The
local version marker (`LOC_VER.txt`) is held separately from the tree, as the
claims under consideration do, since it lives at a fixed reserved path. -/

/-- A relative path under the install root, as components. -/
abbrev Path := List String

/-- The install-root file tree. -/
abbrev Tree := List (Path × String)

/-- Content of the file at exactly `p`, if any. -/
def tlookup (p : Path) : Tree → Option String
  | [] => none
  | e :: t => if e.1 = p then some e.2 else tlookup p t

/-- `os.path.isdir`: a directory exists iff some file lives strictly below it. -/
def treeHasDir (t : Tree) (p : Path) : Bool :=
  t.any (fun e => pfx p e.1 && !(e.1 == p))

/-- `os.path.isfile`-style existence of a plain file. -/
def treeHasFile (t : Tree) (p : Path) : Bool :=
  (tlookup p t).isSome

/-- `shutil.rmtree`: remove every file at or below `p`. -/
def removeDirT (t : Tree) (p : Path) : Tree :=
  t.filter (fun e => !(pfx p e.1))

/-- `os.remove`: remove the file at exactly `p`. -/
def removeFileT (t : Tree) (p : Path) : Tree :=
  t.filter (fun e => !(e.1 == p))

/-- `shutil.copy2` to a destination path: overwrite or create the file. -/
def setFileT (t : Tree) (p : Path) (content : String) : Tree :=
  t.filter (fun e => !(e.1 == p)) ++ [(p, content)]

/-- Split a delete-list line into path components; empty components (for
example from a trailing slash on a directory entry) are dropped, as OS path
resolution would. -/
def parsePath (line : String) : Path :=
  ((splitOnChar '/' line.data).map (fun cs => String.mk cs)).filter
    (fun s => !(s == ""))

/-- The non-empty stripped lines of a delete-list file body, as produced by
`for line in f` with `line.strip()` and the emptiness test. -/
def deleteLines (content : String) : List String :=
  ((splitOnChar '\n' content.data).map (fun cs => pyStrip (String.mk cs))).filter
    (fun s => !(s == ""))

/-- The configured delete-list filename (`DELETE_LIST_FILE`). -/
structure Config where
  deleteListFile : String

/-- An update package, already seen as its extracted tree: the relative paths
and contents the archive holds (possibly including the delete-list file at
the root). -/
structure Package where
  files : List (Path × String)

/-- Mutable state outside the temporary work area: the local version marker
file (`None` = missing) and the install-root tree. -/
structure FS where
  marker : Option String
  tree : Tree

/-- `get_local_version` from `src/Updater.py`: read the marker file and strip
it; `none` when the file does not exist. -/
def get_local_version (fs : FS) : Option String :=
  fs.marker.map pyStrip

/-- Failure injection for one `apply_update` invocation. `stagingFails`:
recreating the temp area raises; `extractFails`: `zipfile` raises;
`deleteListOpenFails`: opening/reading the delete-list raises;
`deleteFails p`: removal of `p` raises (per-file, warned); `walkFailIdx`:
the `os.makedirs` before copying the file at this walk position raises
(hard); `copyFails p`: `shutil.copy2` for `p` raises (per-file, warned);
`commitFails` / `restoreFails`: the corresponding marker write raises;
`cleanupFails`: the final `shutil.rmtree` of the temp area raises. -/
structure ApplyEnv where
  stagingFails : Bool := false
  extractFails : Bool := false
  deleteListOpenFails : Bool := false
  deleteFails : Path → Bool := fun _ => false
  walkFailIdx : Option Nat := none
  copyFails : Path → Bool := fun _ => false
  commitFails : Bool := false
  restoreFails : Bool := false
  cleanupFails : Bool := false

/-- The environment in which no operation fails. -/
def okApplyEnv : ApplyEnv := {}

/-- Result of one `apply_update` invocation: the returned Boolean, the state
after the call, the warnings appended to `UPDATE_WARNINGS`, and the values
successfully written to the local version marker file, in order. -/
structure ApplyResult where
  ok : Bool
  fs : FS
  warnings : List String
  markerWrites : List String

/-- One delete-list entry (step Cleansed): `os.path.exists`, then
`shutil.rmtree` for directories or `os.remove` for files; any failure is
downgraded to the warning 无用文件清理失败. -/
def deleteOne (env : ApplyEnv) (t : Tree) (line : String) : Tree × List String :=
  let p := parsePath line
  if treeHasDir t p || treeHasFile t p then
    if env.deleteFails p then (t, ["无用文件清理失败"])
    else if treeHasDir t p then (removeDirT t p, [])
    else (removeFileT t p, [])
  else (t, [])

/-- The whole delete-list pass, in line order. -/
def deletePhase (env : ApplyEnv) : List String → Tree → Tree × List String
  | [], t => (t, [])
  | l :: ls, t =>
    let r1 := deleteOne env t l
    let r2 := deletePhase env ls r1.1
    (r2.1, r1.2 ++ r2.2)

/-- The files the overlay walk copies: everything extracted into the temp
area, minus the delete-list file at the work-area root. -/
def walkFiles (cfg : Config) (pkg : Package) : List (Path × String) :=
  pkg.files.filter (fun e => !(e.1 == [cfg.deleteListFile]))

/-- Overlay walk (step Overlaid) over the remaining files, `i` being the walk
position: a hard `os.makedirs` failure at position `walkFailIdx` aborts the
walk; a per-file `shutil.copy2` failure appends the warning 更新文件复制失败
with the relative path and continues. Returns (walk completed, tree,
warnings). -/
def walkGo (env : ApplyEnv) : List (Path × String) → Nat → Tree → List String →
    Bool × Tree × List String
  | [], _, t, ws => (true, t, ws)
  | f :: rest, i, t, ws =>
    if env.walkFailIdx = some i then (false, t, ws)
    else if env.copyFails f.1 then
      walkGo env rest (i + 1) t
        (ws ++ ["更新文件复制失败 " ++ String.intercalate "/" f.1])
    else walkGo env rest (i + 1) (setFileT t f.1 f.2) ws

/-- The `finally` block: remove the temporary work area; failure is the
warning 临时文件清理失败. -/
def cleanupWarn (env : ApplyEnv) : List String :=
  if env.cleanupFails then ["临时文件清理失败"] else []

/-- The `except` handler of `apply_update`: restore the marker to the backed
up value when that value is truthy; a failing restore write is the warning
版本信息恢复失败. The `finally` cleanup runs afterwards. -/
def applyFail (env : ApplyEnv) (backup : Option String) (fs : FS)
    (ws : List String) : ApplyResult :=
  match backup with
  | some b =>
    if b = "" then ⟨false, fs, ws ++ cleanupWarn env, []⟩
    else if env.restoreFails then
      ⟨false, fs, ws ++ ["版本信息恢复失败"] ++ cleanupWarn env, []⟩
    else ⟨false, { fs with marker := some b }, ws ++ cleanupWarn env, [b]⟩
  | none => ⟨false, fs, ws ++ cleanupWarn env, []⟩

/-- The delete-list lines `apply_update` processes: the parsed body of the
delete-list file at the work-area root, or `[]` when that file is absent (in
which case the Cleansed step is skipped and the tree passes through
unchanged, exactly as `deletePhase _ [] _` does). -/
def applyDeleteLines (cfg : Config) (pkg : Package) : List String :=
  match tlookup [cfg.deleteListFile] pkg.files with
  | some content => deleteLines content
  | none => []

/-- `apply_update` from `src/Updater.py`: snapshot the marker, recreate the
temp area, extract, run the delete-list (reading it raises only when the
file exists), walk the overlay, then rewrite the marker to `targetVersion`;
any exception before that write lands in the `except` handler (`applyFail`);
the temp-area cleanup always runs. A failing commit write leaves a truncated
(empty) marker before the handler restores it. -/
def apply_update (cfg : Config) (env : ApplyEnv) (pkg : Package)
    (targetVersion : String) (fs : FS) : ApplyResult :=
  let backup := get_local_version fs
  if env.stagingFails then applyFail env backup fs []
  else if env.extractFails then applyFail env backup fs []
  else if env.deleteListOpenFails &&
      (tlookup [cfg.deleteListFile] pkg.files).isSome then
    applyFail env backup fs []
  else
    let dp := deletePhase env (applyDeleteLines cfg pkg) fs.tree
    let wr := walkGo env (walkFiles cfg pkg) 0 dp.1 []
    if wr.1 then
      if env.commitFails then
        applyFail env backup { marker := some "", tree := wr.2.1 } (dp.2 ++ wr.2.2)
      else
        ⟨true, { marker := some targetVersion, tree := wr.2.1 },
          dp.2 ++ wr.2.2 ++ cleanupWarn env, [targetVersion]⟩
    else applyFail env backup { fs with tree := wr.2.1 } (dp.2 ++ wr.2.2)

/-- A hard, pre-commit failure actually occurs in steps Staged, Extracted,
Cleansed (the delete-list read itself) or the Overlaid walk. -/
def preCommitFailure (cfg : Config) (env : ApplyEnv) (pkg : Package) : Prop :=
  env.stagingFails = true ∨ env.extractFails = true ∨
    (env.deleteListOpenFails = true ∧
      (tlookup [cfg.deleteListFile] pkg.files).isSome = true) ∨
    (∃ i, env.walkFailIdx = some i ∧ i < (walkFiles cfg pkg).length)

/-- No hard failure is injected (per-file failures remain allowed). -/
def hardOk (env : ApplyEnv) : Prop :=
  env.stagingFails = false ∧ env.extractFails = false ∧
    env.deleteListOpenFails = false ∧ env.walkFailIdx = none ∧
    env.commitFails = false

/-! ### Model of the package fetcher and the orchestrator loop -/

/-- Failure injection for one `download_update` invocation. `staleExists` /
`staleDeleteFails`: a stale package file exists and its removal raises;
`netFails`: the request raises a timeout or connection error;
`contentLength`: the reported content length (0 if the header is absent);
`freeSpace`: `shutil.disk_usage(...).free`; `diskCheckRaises`: the usage
query raises (the check then returns True). -/
structure FetchEnv where
  staleExists : Bool := false
  staleDeleteFails : Bool := false
  netFails : Bool := false
  contentLength : Nat := 0
  freeSpace : Nat := 0
  diskCheckRaises : Bool := false

/-- `check_disk_space` from `src/Updater.py`: free space must be strictly
more than twice the required size; any exception while checking returns
True. -/
def check_disk_space (env : FetchEnv) (requiredSize : Nat) : Bool :=
  if env.diskCheckRaises then true
  else decide (env.freeSpace > requiredSize * 2)

/-- `download_update` from `src/Updater.py`: stale-package cleanup (failure
is the warning 残留文件清理失败 and does not abort), network fetch, the
disk-space preflight on the reported content length, then the streamed
write. Returns the package path on success, `None` on failure. -/
def download_update (env : FetchEnv) (version : String) :
    Option String × List String :=
  let ws := if env.staleExists && env.staleDeleteFails
    then ["残留文件清理失败"] else []
  if env.netFails then (none, ws)
  else if !(check_disk_space env env.contentLength) then (none, ws)
  else (some ("Update_" ++ version ++ ".zip"), ws)

/-- Per-version environments for a whole orchestrator run. -/
structure RunEnv where
  cfg : Config
  fetch : String → FetchEnv
  applyE : String → ApplyEnv
  pkg : String → Package

/-- The per-version loop in `main` (the download-and-install branch):
download then apply each chain element in order, breaking out at the first
hard failure; a successful apply is followed by package cleanup (which does
not touch the modelled state). Returns (overall success, final state, the
chain elements attempted in order). -/
def run_chain (env : RunEnv) : List String → FS → Bool × FS × List String
  | [], fs => (true, fs, [])
  | v :: rest, fs =>
    match (download_update (env.fetch v) v).1 with
    | none => (false, fs, [v])
    | some _ =>
      let r := apply_update env.cfg (env.applyE v) (env.pkg v) v fs
      if r.ok then
        let rr := run_chain env rest r.fs
        (rr.1, rr.2.1, v :: rr.2.2)
      else (false, r.fs, [v])

/-- The state after applying a list of chain elements in order (the commits
the orchestrator has already made when it reaches the next element). -/
def applyChain (env : RunEnv) (chain : List String) (fs : FS) : FS :=
  chain.foldl (fun s u => (apply_update env.cfg (env.applyE u) (env.pkg u) u s).fs) fs

end Updater

namespace Updater

/-! ### Lemmas on the version codec -/

theorem isDigitCh_digitCh (n : Nat) : isDigitCh (digitCh n) = true := by
  unfold digitCh
  split <;> decide

theorem digitVal_digitCh (n : Nat) (h : n < 10) : digitVal (digitCh n) = n := by
  interval_cases n <;> decide

theorem not_space_of_digit {c : Char} (h : isDigitCh c = true) : isSpaceCh c = false := by
  by_contra hs
  simp only [Bool.not_eq_false, isSpaceCh, Bool.or_eq_true, beq_iff_eq] at hs
  rcases hs with ((((h1 | h1) | h1) | h1) | h1) | h1 <;> subst h1 <;>
    exact absurd h (by decide)

theorem digit_ne {c : Char} (h : isDigitCh c = true) :
    c ≠ '.' ∧ c ≠ '-' ∧ c ≠ '+' ∧ c ≠ '_' := by
  refine ⟨?_, ?_, ?_, ?_⟩ <;> rintro rfl <;> exact absurd h (by decide)

theorem natChars_ne_nil (n : Nat) : natChars n ≠ [] := by
  rw [natChars]
  split <;> simp

theorem natChars_digits (n : Nat) : ∀ c ∈ natChars n, isDigitCh c = true := by
  induction n using Nat.strong_induction_on with
  | _ n ih =>
    rw [natChars]
    split
    · intro c hc
      simp only [List.mem_singleton] at hc
      subst hc
      exact isDigitCh_digitCh _
    · intro c hc
      rename_i h
      rcases List.mem_append.mp hc with hc | hc
      · exact ih (n / 10) (Nat.div_lt_self (by omega) (by omega)) c hc
      · simp only [List.mem_singleton] at hc
        subst hc
        exact isDigitCh_digitCh _

theorem natChars_val (n : Nat) :
    ∀ acc, valAcc acc (natChars n) = acc * 10 ^ (natChars n).length + n := by
  induction n using Nat.strong_induction_on with
  | _ n ih =>
    intro acc
    rw [natChars]
    split
    · rename_i h
      simp [valAcc, digitVal_digitCh n h]
      omega
    · rename_i h
      rw [valAcc, List.foldl_append]
      have hfold : List.foldl (fun a c => 10 * a + digitVal c) acc (natChars (n / 10))
          = valAcc acc (natChars (n / 10)) := rfl
      simp only [List.foldl_cons, List.foldl_nil]
      rw [hfold, ih (n / 10) (Nat.div_lt_self (by omega) (by omega)) acc]
      rw [digitVal_digitCh (n % 10) (by omega)]
      rw [List.length_append, List.length_singleton, pow_succ]
      generalize (10 : Nat) ^ (natChars (n / 10)).length = k
      have h2 : 10 * (acc * k + n / 10) + n % 10
          = acc * (k * 10) + (10 * (n / 10) + n % 10) := by ring
      rw [h2]
      congr 1
      omega

theorem digitsGo_cons (acc : Nat) (c : Char) (cs : List Char) :
    digitsGo acc (c :: cs) =
      if c = '_' then
        match cs with
        | [] => none
        | d :: ds => if isDigitCh d then digitsGo (10 * acc + digitVal d) ds else none
      else if isDigitCh c then digitsGo (10 * acc + digitVal c) cs else none := by
  rw [digitsGo.eq_def]

theorem digitsGo_digits :
    ∀ (ds : List Char) (acc : Nat), (∀ c ∈ ds, isDigitCh c = true) →
      digitsGo acc ds = some (valAcc acc ds)
  | [], acc, _ => by simp [digitsGo, valAcc]
  | c :: cs, acc, h => by
    have hc : isDigitCh c = true := h c (by simp)
    have hne : c ≠ '_' := (digit_ne hc).2.2.2
    rw [digitsGo_cons, if_neg hne, if_pos hc]
    rw [digitsGo_digits cs _ (fun d hd => h d (by simp [hd]))]
    rfl

theorem digitsPart_natChars (n : Nat) : digitsPart (natChars n) = some n := by
  have hd := natChars_digits n
  have hval := natChars_val n 0
  obtain ⟨c, cs, hcons⟩ : ∃ c cs, natChars n = c :: cs := by
    cases h : natChars n with
    | nil => exact absurd h (natChars_ne_nil n)
    | cons c cs => exact ⟨c, cs, rfl⟩
  rw [hcons] at hd hval ⊢
  rw [digitsPart, if_pos (hd c (by simp))]
  rw [digitsGo_digits cs _ (fun d hdm => hd d (by simp [hdm]))]
  have hv : valAcc 0 (c :: cs) = valAcc (digitVal c) cs := by simp [valAcc]
  rw [← hv, hval]
  simp

theorem dropWhile_all_false {p : Char → Bool} {l : List Char}
    (h : ∀ c ∈ l, p c = false) : l.dropWhile p = l := by
  cases l with
  | nil => rfl
  | cons c cs => simp [List.dropWhile_cons, h c (by simp)]

theorem pyStripChars_eq_self {cs : List Char} (h : ∀ c ∈ cs, isSpaceCh c = false) :
    pyStripChars cs = cs := by
  unfold pyStripChars
  rw [dropWhile_all_false h]
  rw [dropWhile_all_false (fun c hc => h c (List.mem_reverse.mp hc))]
  exact List.reverse_reverse cs

theorem intChars_facts (i : Int) :
    ∀ c ∈ intChars i, isSpaceCh c = false ∧ c ≠ '.' := by
  intro c hc
  unfold intChars at hc
  split at hc
  · rcases List.mem_cons.mp hc with rfl | hc
    · exact ⟨by decide, by decide⟩
    · have hd := natChars_digits _ c hc
      exact ⟨not_space_of_digit hd, (digit_ne hd).1⟩
  · have hd := natChars_digits _ c hc
    exact ⟨not_space_of_digit hd, (digit_ne hd).1⟩

theorem pyIntSeg_intChars (i : Int) : pyIntSeg (intChars i) = some i := by
  by_cases hi : i < 0
  · rw [intChars, if_pos hi]
    unfold pyIntSeg
    rw [pyStripChars_eq_self (by
      intro c hc
      rcases List.mem_cons.mp hc with rfl | hc
      · decide
      · exact not_space_of_digit (natChars_digits _ c hc))]
    rw [pyIntCore, if_pos rfl, digitsPart_natChars]
    simp only [Option.map_some']
    congr 1
    omega
  · rw [intChars, if_neg hi]
    unfold pyIntSeg
    rw [pyStripChars_eq_self (fun c hc => not_space_of_digit (natChars_digits _ c hc))]
    obtain ⟨c, cs, hcons⟩ : ∃ c cs, natChars i.toNat = c :: cs := by
      cases h : natChars i.toNat with
      | nil => exact absurd h (natChars_ne_nil _)
      | cons c cs => exact ⟨c, cs, rfl⟩
    rw [hcons]
    have hd : isDigitCh c = true := natChars_digits _ c (by rw [hcons]; simp)
    rw [pyIntCore, if_neg (digit_ne hd).2.1, if_neg (digit_ne hd).2.2.1]
    rw [← hcons, digitsPart_natChars]
    simp only [Option.map_some']
    congr 1
    omega

theorem splitOnChar_no_sep {sep : Char} {cs : List Char} (h : ∀ c ∈ cs, c ≠ sep) :
    splitOnChar sep cs = [cs] := by
  induction cs with
  | nil => rfl
  | cons c cs ih =>
    rw [splitOnChar, if_neg (h c (by simp))]
    rw [ih (fun d hd => h d (by simp [hd]))]

theorem splitOnChar_sep_append {sep : Char} {xs ys : List Char}
    (h : ∀ c ∈ xs, c ≠ sep) :
    splitOnChar sep (xs ++ sep :: ys) = xs :: splitOnChar sep ys := by
  induction xs with
  | nil => simp [splitOnChar]
  | cons c cs ih =>
    rw [List.cons_append, splitOnChar, if_neg (h c (by simp))]
    rw [ih (fun d hd => h d (by simp [hd]))]

theorem splitOnChar_ical {sep : Char} :
    ∀ (ps : List (List Char)), ps ≠ [] → (∀ p ∈ ps, ∀ c ∈ p, c ≠ sep) →
      splitOnChar sep (icalChars sep ps) = ps
  | [], h, _ => absurd rfl h
  | [p], _, h => by
    rw [icalChars]
    exact splitOnChar_no_sep (h p (by simp))
  | p :: q :: ps, _, h => by
    rw [icalChars, splitOnChar_sep_append (h p (by simp))]
    rw [splitOnChar_ical (q :: ps) (List.cons_ne_nil q ps)
      (fun r hr => h r (by simp [hr]))]
    exact List.cons_ne_nil q ps

theorem segInts_intChars (l : List Int) :
    segInts (l.map intChars) = some l := by
  induction l with
  | nil => rfl
  | cons x xs ih => simp [segInts, pyIntSeg_intChars, ih]

/-- Round-trip: parsing a formatted version recovers the segment list. -/
theorem parse_format (l : List Int) : parse_version (format_version l) = l := by
  cases l with
  | nil => rfl
  | cons a as =>
    show (match segInts (splitOnChar '.' (icalChars '.' ((a :: as).map intChars))) with
      | some l => l
      | none => []) = a :: as
    rw [splitOnChar_ical ((a :: as).map intChars) (by simp) (by
      intro p hp c hc
      rcases List.mem_map.mp hp with ⟨x, _, rfl⟩
      exact (intChars_facts x c hc).2)]
    rw [segInts_intChars]

/-! ### Lemmas on the Python list order -/

theorem pyListLt_irrefl (a : List Int) : pyListLt a a = false := by
  induction a with
  | nil => rfl
  | cons x xs ih => simp [pyListLt, ih]

theorem pyListLt_trans :
    ∀ {a b c : List Int}, pyListLt a b = true → pyListLt b c = true →
      pyListLt a c = true
  | a, b, [], _, hbc => by simp [pyListLt] at hbc
  | [], b, _ :: _, _, _ => rfl
  | x :: xs, [], c, hab, _ => by simp [pyListLt] at hab
  | x :: xs, y :: ys, z :: zs, hab, hbc => by
    simp only [pyListLt] at hab hbc ⊢
    rcases lt_trichotomy x y with h1 | h1 | h1
    · rcases lt_trichotomy y z with h2 | h2 | h2
      · rw [if_pos (lt_trans h1 h2)]
      · subst h2
        rw [if_pos h1]
      · rw [if_neg (by omega), if_pos h2] at hbc
        exact absurd hbc (by simp)
    · subst h1
      rw [if_neg (lt_irrefl x), if_neg (lt_irrefl x)] at hab
      rcases lt_trichotomy x z with h2 | h2 | h2
      · rw [if_pos h2]
      · subst h2
        rw [if_neg (lt_irrefl x), if_neg (lt_irrefl x)] at hbc ⊢
        exact pyListLt_trans hab hbc
      · rw [if_neg (by omega), if_pos h2] at hbc
        exact absurd hbc (by simp)
    · rw [if_neg (by omega), if_pos h1] at hab
      exact absurd hab (by simp)

theorem pyListLt_total :
    ∀ (a b : List Int), a ≠ b → pyListLt a b = true ∨ pyListLt b a = true
  | [], [], h => absurd rfl h
  | [], _ :: _, _ => Or.inl rfl
  | _ :: _, [], _ => Or.inr rfl
  | x :: xs, y :: ys, h => by
    rcases lt_trichotomy x y with hxy | hxy | hxy
    · left
      simp [pyListLt, hxy]
    · subst hxy
      have hne : xs ≠ ys := fun he => h (by rw [he])
      rcases pyListLt_total xs ys hne with hlt | hlt
      · left
        simp [pyListLt, hlt]
      · right
        simp [pyListLt, hlt]
    · right
      simp [pyListLt, hxy]

theorem pyListLt_iff_lex (a b : List Int) :
    pyListLt a b = true ↔ List.Lex (fun x y : Int => x < y) a b := by
  induction a generalizing b with
  | nil =>
    cases b with
    | nil =>
      constructor
      · intro h
        exact absurd h (by decide)
      · intro h
        cases h
    | cons y ys =>
      constructor
      · intro _
        exact List.Lex.nil
      · intro _
        rfl
  | cons x xs ih =>
    cases b with
    | nil =>
      constructor
      · intro h
        exact absurd h (by simp [pyListLt])
      · intro h
        cases h
    | cons y ys =>
      constructor
      · intro h
        simp only [pyListLt] at h
        rcases lt_trichotomy x y with h1 | h1 | h1
        · exact List.Lex.rel h1
        · subst h1
          rw [if_neg (lt_irrefl x), if_neg (lt_irrefl x)] at h
          exact List.Lex.cons ((ih ys).mp h)
        · rw [if_neg (by omega), if_pos h1] at h
          exact absurd h (by simp)
      · intro h
        cases h with
        | rel hr => simp [pyListLt, hr]
        | cons ht =>
          simp only [pyListLt]
          rw [if_neg (lt_irrefl x), if_neg (lt_irrefl x)]
          exact (ih ys).mpr ht

theorem pfx_of_lt {a b : List Int} (hp : pfx a b = true) (hne : a ≠ b) :
    pyListLt a b = true := by
  induction a generalizing b with
  | nil =>
    cases b with
    | nil => exact absurd rfl hne
    | cons y ys => rfl
  | cons x xs ih =>
    cases b with
    | nil => simp [pfx] at hp
    | cons y ys =>
      simp only [pfx, Bool.and_eq_true, beq_iff_eq] at hp
      obtain ⟨rfl, hp⟩ := hp
      have hne2 : xs ≠ ys := fun he => hne (by rw [he])
      simp only [pyListLt, if_neg (lt_irrefl x)]
      exact ih hp hne2

/-! ### Lemmas on the update chain -/

theorem chainLoop_eq_filter (c t : List Int) (vs : List String) :
    chainLoop c t vs = vs.filter (fun v =>
      !(parse_version v).isEmpty &&
        (pyListLt c (parse_version v) && pyListLe (parse_version v) t)) := by
  induction vs with
  | nil => rfl
  | cons v vs ih =>
    simp only [chainLoop, List.filter_cons]
    by_cases h1 : (parse_version v).isEmpty
    · simp [h1, ih]
    · by_cases h2 : pyListLt c (parse_version v) && pyListLe (parse_version v) t
      · simp [h1, h2, ih]
      · simp [h1, h2, ih]

theorem get_update_chain_eq (cur tgt : String) (vs : List String) :
    get_update_chain cur tgt vs = resolve_spec cur tgt vs := by
  unfold get_update_chain resolve_spec
  simp only [List.isEmpty_iff, Bool.or_eq_true, decide_eq_true_eq]
  split_ifs with h1
  · rfl
  · exact chainLoop_eq_filter _ _ _

theorem mem_get_update_chain {cur tgt v : String} {vs : List String}
    (h : v ∈ get_update_chain cur tgt vs) :
    parse_version v ≠ [] ∧
      pyListLt (parse_version cur) (parse_version v) = true ∧
      pyListLe (parse_version v) (parse_version tgt) = true := by
  rw [get_update_chain_eq] at h
  unfold resolve_spec at h
  split_ifs at h with h1
  · simp at h
  · have hmem := List.of_mem_filter h
    simp only [Bool.and_eq_true, Bool.not_eq_true', List.isEmpty_iff] at hmem
    exact ⟨by
      intro he
      rw [he] at hmem
      simp at hmem, hmem.2.1, hmem.2.2⟩

/-! ### Lemmas on the patch applier -/

theorem walkGo_completes (env : ApplyEnv) (hidx : env.walkFailIdx = none) :
    ∀ (F : List (Path × String)) (i : Nat) (t : Tree) (ws : List String),
      (walkGo env F i t ws).1 = true
  | [], _, _, _ => rfl
  | f :: rest, i, t, ws => by
    rw [walkGo, hidx, if_neg (by simp)]
    by_cases hc : env.copyFails f.1
    · rw [if_pos hc]
      exact walkGo_completes env hidx rest _ _ _
    · rw [if_neg hc]
      exact walkGo_completes env hidx rest _ _ _

theorem walkGo_aborts (env : ApplyEnv) :
    ∀ (F : List (Path × String)) (i0 : Nat) (t : Tree) (ws : List String) (i : Nat),
      env.walkFailIdx = some i → i0 ≤ i → i < i0 + F.length →
      (walkGo env F i0 t ws).1 = false
  | [], i0, t, ws, i, _, hle, hlt => by
    simp only [List.length_nil] at hlt
    omega
  | f :: rest, i0, t, ws, i, hidx, hle, hlt => by
    rw [walkGo, hidx]
    by_cases he : i = i0
    · subst he
      rw [if_pos rfl]
    · rw [if_neg (by simp [he])]
      by_cases hc : env.copyFails f.1
      · rw [if_pos hc]
        exact walkGo_aborts env rest (i0 + 1) _ _ i hidx (by omega)
          (by simp only [List.length_cons] at hlt; omega)
      · rw [if_neg hc]
        exact walkGo_aborts env rest (i0 + 1) _ _ i hidx (by omega)
          (by simp only [List.length_cons] at hlt; omega)

theorem applyFail_ok (env : ApplyEnv) (backup : Option String) (fs : FS)
    (ws : List String) : (applyFail env backup fs ws).ok = false := by
  cases backup with
  | none => rfl
  | some b =>
    simp only [applyFail]
    split_ifs <;> rfl

theorem applyFail_writes (env : ApplyEnv) (backup : Option String) (fs : FS)
    (ws : List String) :
    ∀ x ∈ (applyFail env backup fs ws).markerWrites, backup = some x := by
  cases backup with
  | none => simp [applyFail]
  | some b =>
    simp only [applyFail]
    split_ifs <;> simp

theorem applyFail_marker (env : ApplyEnv) (b : String) (fs : FS) (ws : List String)
    (hres : env.restoreFails = false) (hb : b ≠ "") :
    (applyFail env (some b) fs ws).fs.marker = some b := by
  simp only [applyFail]
  rw [if_neg hb, if_neg (by simp [hres])]

/-- Any hard failure (pre-commit, or the commit write itself) lands in the
`except` handler: the call returns some `applyFail` outcome computed from the
snapshot taken at entry. -/
theorem apply_fail_eq (cfg : Config) (env : ApplyEnv) (pkg : Package)
    (tv : String) (fs : FS)
    (hfail : preCommitFailure cfg env pkg ∨ env.commitFails = true) :
    ∃ fs1 ws1, apply_update cfg env pkg tv fs
      = applyFail env (get_local_version fs) fs1 ws1 := by
  unfold apply_update
  by_cases h1 : env.stagingFails = true
  · rw [if_pos h1]
    exact ⟨fs, [], rfl⟩
  · rw [if_neg h1]
    by_cases h2 : env.extractFails = true
    · rw [if_pos h2]
      exact ⟨fs, [], rfl⟩
    · rw [if_neg h2]
      by_cases h3 : (env.deleteListOpenFails &&
          (tlookup [cfg.deleteListFile] pkg.files).isSome) = true
      · rw [if_pos h3]
        exact ⟨fs, [], rfl⟩
      · rw [if_neg h3]
        by_cases hw : (walkGo env (walkFiles cfg pkg) 0
            (deletePhase env (applyDeleteLines cfg pkg) fs.tree).1 []).1 = true
        · rw [if_pos hw]
          by_cases h4 : env.commitFails = true
          · rw [if_pos h4]
            exact ⟨_, _, rfl⟩
          · exfalso
            rcases hfail with hpre | hc
            · rcases hpre with h | h | h | ⟨i, hi, hilt⟩
              · exact h1 h
              · exact h2 h
              · exact h3 (by rw [h.1, h.2]; rfl)
              · have := walkGo_aborts env (walkFiles cfg pkg) 0
                  (deletePhase env (applyDeleteLines cfg pkg) fs.tree).1 [] i hi
                  (Nat.zero_le i) (by omega)
                rw [hw] at this
                exact absurd this (by simp)
            · exact h4 hc
        · rw [if_neg hw]
          exact ⟨_, _, rfl⟩

/-- With no hard failure injected, `apply_update` commits: it returns `True`,
rewrites the marker to the target version, and its state, warnings and
marker-write trace are those of the delete pass, the walk, and the cleanup. -/
theorem apply_hardOk_eq (cfg : Config) (env : ApplyEnv) (pkg : Package)
    (tv : String) (fs : FS) (h : hardOk env) :
    apply_update cfg env pkg tv fs =
      ⟨true,
        { marker := some tv,
          tree := (walkGo env (walkFiles cfg pkg) 0
            (deletePhase env (applyDeleteLines cfg pkg) fs.tree).1 []).2.1 },
        (deletePhase env (applyDeleteLines cfg pkg) fs.tree).2 ++
          (walkGo env (walkFiles cfg pkg) 0
            (deletePhase env (applyDeleteLines cfg pkg) fs.tree).1 []).2.2 ++
          cleanupWarn env,
        [tv]⟩ := by
  obtain ⟨h1, h2, h3, h4, h5⟩ := h
  unfold apply_update
  rw [if_neg (by simp [h1]), if_neg (by simp [h2]), if_neg (by simp [h3]),
    if_pos (walkGo_completes env h4 (walkFiles cfg pkg) 0
      (deletePhase env (applyDeleteLines cfg pkg) fs.tree).1 []),
    if_neg (by simp [h5])]

/-- Rollback: any hard failure with a working restore write puts the marker
back to the snapshot taken at entry, and the call reports failure. -/
theorem apply_rollback (cfg : Config) (env : ApplyEnv) (pkg : Package)
    (tv : String) (fs : FS)
    (hfail : preCommitFailure cfg env pkg ∨ env.commitFails = true)
    (hres : env.restoreFails = false)
    (hb : (get_local_version fs).getD "" ≠ "") :
    (apply_update cfg env pkg tv fs).fs.marker = get_local_version fs ∧
      (apply_update cfg env pkg tv fs).ok = false := by
  obtain ⟨fs1, ws1, heq⟩ := apply_fail_eq cfg env pkg tv fs hfail
  rw [heq]
  cases hgl : get_local_version fs with
  | none =>
    rw [hgl] at hb
    simp at hb
  | some b =>
    have hbne : b ≠ "" := by
      rw [hgl] at hb
      simpa using hb
    exact ⟨applyFail_marker env b fs1 ws1 hres hbne, applyFail_ok _ _ _ _⟩

theorem apply_hardOk_parts (cfg : Config) (env : ApplyEnv) (pkg : Package)
    (tv : String) (fs : FS) (h : hardOk env) :
    (apply_update cfg env pkg tv fs).ok = true ∧
      (apply_update cfg env pkg tv fs).fs.marker = some tv := by
  rw [apply_hardOk_eq cfg env pkg tv fs h]
  exact ⟨rfl, rfl⟩

/-! ### Lemmas on the orchestrator loop -/

theorem run_chain_step_dlFail (env : RunEnv) (v : String) (rest : List String)
    (fs : FS) (hdl : (download_update (env.fetch v) v).1 = none) :
    run_chain env (v :: rest) fs = (false, fs, [v]) := by
  rw [run_chain, hdl]

theorem run_chain_step_ok (env : RunEnv) (v : String) (rest : List String)
    (fs : FS) (hdl : ((download_update (env.fetch v) v).1).isSome = true)
    (hok : (apply_update env.cfg (env.applyE v) (env.pkg v) v fs).ok = true) :
    run_chain env (v :: rest) fs =
      ((run_chain env rest (apply_update env.cfg (env.applyE v) (env.pkg v) v fs).fs).1,
        (run_chain env rest (apply_update env.cfg (env.applyE v) (env.pkg v) v fs).fs).2.1,
        v :: (run_chain env rest
          (apply_update env.cfg (env.applyE v) (env.pkg v) v fs).fs).2.2) := by
  obtain ⟨s, hs⟩ := Option.isSome_iff_exists.mp hdl
  rw [run_chain, hs]
  simp only [hok, if_true]

theorem run_chain_step_applyFail (env : RunEnv) (v : String) (rest : List String)
    (fs : FS) (hdl : ((download_update (env.fetch v) v).1).isSome = true)
    (hok : (apply_update env.cfg (env.applyE v) (env.pkg v) v fs).ok = false) :
    run_chain env (v :: rest) fs =
      (false, (apply_update env.cfg (env.applyE v) (env.pkg v) v fs).fs, [v]) := by
  obtain ⟨s, hs⟩ := Option.isSome_iff_exists.mp hdl
  rw [run_chain, hs]
  simp only [hok, Bool.false_eq_true, if_false]

theorem applyChain_cons (env : RunEnv) (u : String) (chain : List String)
    (fs : FS) :
    applyChain env (u :: chain) fs =
      applyChain env chain
        (apply_update env.cfg (env.applyE u) (env.pkg u) u fs).fs := rfl

/-- A prefix whose every element fetches and applies cleanly is worked
through element by element: the run continues on the remaining tail from the
state holding the prefix's commits, and the attempted list starts with the
prefix. -/
theorem run_chain_clean_head (env : RunEnv) :
    ∀ (pre tail : List String) (fs : FS),
      (∀ u ∈ pre, ((download_update (env.fetch u) u).1).isSome = true ∧
        hardOk (env.applyE u)) →
      run_chain env (pre ++ tail) fs =
        ((run_chain env tail (applyChain env pre fs)).1,
          (run_chain env tail (applyChain env pre fs)).2.1,
          pre ++ (run_chain env tail (applyChain env pre fs)).2.2)
  | [], tail, fs, _ => rfl
  | u :: pre, tail, fs, hpre => by
    rw [List.cons_append]
    rw [run_chain_step_ok env u (pre ++ tail) fs (hpre u (by simp)).1
      (apply_hardOk_parts env.cfg (env.applyE u) (env.pkg u) u fs
        (hpre u (by simp)).2).1]
    rw [run_chain_clean_head env pre tail _ (fun w hw => hpre w (by simp [hw]))]
    rw [applyChain_cons]
    simp

/-! ### Lookup lemmas on the tree model -/

theorem tlookup_append (p : Path) (A B : Tree) :
    tlookup p (A ++ B) =
      match tlookup p A with
      | some c => some c
      | none => tlookup p B := by
  induction A with
  | nil => rfl
  | cons e A ih =>
    by_cases he : e.1 = p
    · simp [tlookup, he]
    · simp [tlookup, he, ih]

theorem tlookup_filter_path {p : Path} {c : String} (q : Path → Bool) :
    ∀ t : Tree, tlookup p (t.filter (fun e => q e.1)) = some c →
      q p = true ∧ tlookup p t = some c
  | [], h => by simp [tlookup] at h
  | e :: t, h => by
    by_cases hq : q e.1
    · rw [List.filter_cons_of_pos (by simpa using hq)] at h
      by_cases he : e.1 = p
      · rw [tlookup, if_pos he] at h
        rw [tlookup, if_pos he]
        exact ⟨by rw [← he]; exact hq, h⟩
      · rw [tlookup, if_neg he] at h
        rw [tlookup, if_neg he]
        exact tlookup_filter_path q t h
    · rw [List.filter_cons_of_neg (by simpa using hq)] at h
      have ih := tlookup_filter_path q t h
      have he : e.1 ≠ p := by
        intro he
        rw [he] at hq
        exact hq (by rw [ih.1])
      rw [tlookup, if_neg he]
      exact ih

theorem tlookup_filter_path_keep {p : Path} (q : Path → Bool) (hq : q p = true) :
    ∀ t : Tree, tlookup p (t.filter (fun e => q e.1)) = tlookup p t
  | [] => rfl
  | e :: t => by
    by_cases he : e.1 = p
    · rw [List.filter_cons_of_pos (by simp [he, hq]), tlookup, if_pos he,
        tlookup, if_pos he]
    · by_cases hqe : q e.1
      · rw [List.filter_cons_of_pos (by simpa using hqe), tlookup, if_neg he,
          tlookup, if_neg he]
        exact tlookup_filter_path_keep q hq t
      · rw [List.filter_cons_of_neg (by simpa using hqe), tlookup, if_neg he]
        exact tlookup_filter_path_keep q hq t

theorem tlookup_filter_path_none {p : Path} (q : Path → Bool) (hq : q p = false) :
    ∀ t : Tree, tlookup p (t.filter (fun e => q e.1)) = none
  | [] => rfl
  | e :: t => by
    by_cases hqe : q e.1
    · have he : e.1 ≠ p := by
        intro he
        rw [he, hq] at hqe
        exact absurd hqe (by simp)
      rw [List.filter_cons_of_pos (by simpa using hqe), tlookup, if_neg he]
      exact tlookup_filter_path_none q hq t
    · rw [List.filter_cons_of_neg (by simpa using hqe)]
      exact tlookup_filter_path_none q hq t

theorem tlookup_some_mem {p : Path} {c : String} :
    ∀ {t : Tree}, tlookup p t = some c → (p, c) ∈ t
  | [], h => by simp [tlookup] at h
  | e :: t, h => by
    by_cases he : e.1 = p
    · rw [tlookup, if_pos he] at h
      have : e = (p, c) := by
        cases e
        simp only [Option.some_inj] at h
        simp_all
      rw [this] at *
      exact List.mem_cons_self _ _
    · rw [tlookup, if_neg he] at h
      exact List.mem_cons_of_mem _ (tlookup_some_mem h)

theorem pfx_refl {α : Type} [DecidableEq α] : ∀ (p : List α), pfx p p = true
  | [] => rfl
  | a :: p => by simp [pfx, pfx_refl p]

theorem tlookup_setFileT_same (t : Tree) (p : Path) (c : String) :
    tlookup p (setFileT t p c) = some c := by
  unfold setFileT
  rw [tlookup_append,
    tlookup_filter_path_none (fun q => !(q == p)) (by simp) t]
  simp [tlookup]

theorem tlookup_setFileT_other {p' p : Path} (hne : p' ≠ p) (t : Tree) (c : String) :
    tlookup p' (setFileT t p c) = tlookup p' t := by
  unfold setFileT
  rw [tlookup_append,
    tlookup_filter_path_keep (fun q => !(q == p)) (by simp [hne]) t]
  cases h : tlookup p' t with
  | none => simp [tlookup, Ne.symm hne]
  | some c' => rfl

theorem tlookup_filter_path_of_none {p : Path} (q : Path → Bool) {t : Tree}
    (h : tlookup p t = none) : tlookup p (t.filter (fun e => q e.1)) = none := by
  cases hq : q p
  · exact tlookup_filter_path_none q hq t
  · rw [tlookup_filter_path_keep q hq t]
    exact h

/-- A path with content below a prefix `q` makes `q` exist (as the file
itself when equal, as a directory otherwise). -/
theorem exists_of_pfx_lookup {t : Tree} {p q : Path} {c : String}
    (hl : tlookup p t = some c) (hpfx : pfx q p = true) :
    (treeHasDir t q || treeHasFile t q) = true := by
  by_cases he : q = p
  · subst he
    simp [treeHasFile, hl]
  · have hmem := tlookup_some_mem hl
    have : treeHasDir t q = true := by
      simp only [treeHasDir, List.any_eq_true]
      exact ⟨(p, c), hmem, by simp [hpfx, Ne.symm he]⟩
    simp [this]

theorem deleteOne_some {env : ApplyEnv} (hdel : ∀ q, env.deleteFails q = false)
    {t : Tree} {l : String} {p : Path} {c : String}
    (h : tlookup p (deleteOne env t l).1 = some c) :
    tlookup p t = some c ∧ pfx (parsePath l) p = false := by
  unfold deleteOne at h
  by_cases hex : (treeHasDir t (parsePath l) || treeHasFile t (parsePath l)) = true
  · rw [if_pos hex, if_neg (by simp [hdel])] at h
    by_cases hdir : treeHasDir t (parsePath l) = true
    · rw [if_pos hdir] at h
      have hf := tlookup_filter_path (fun r => !(pfx (parsePath l) r)) t h
      exact ⟨hf.2, by simpa using hf.1⟩
    · rw [if_neg hdir] at h
      have hf := tlookup_filter_path (fun r => !(r == parsePath l)) t h
      refine ⟨hf.2, ?_⟩
      by_contra hpf
      have hpf : pfx (parsePath l) p = true := by simpa using hpf
      by_cases heq : parsePath l = p
      · rw [heq] at hf
        simp at hf
      · have hmem := tlookup_some_mem hf.2
        exact hdir (by
          simp only [treeHasDir, List.any_eq_true]
          exact ⟨(p, c), hmem, by simp [hpf, Ne.symm heq]⟩)
  · rw [if_neg hex] at h
    refine ⟨h, ?_⟩
    by_contra hpf
    exact hex (exists_of_pfx_lookup h (by simpa using hpf))

theorem deleteOne_keep {env : ApplyEnv} {t : Tree} {l : String} {p : Path}
    (hpf : pfx (parsePath l) p = false) :
    tlookup p (deleteOne env t l).1 = tlookup p t := by
  unfold deleteOne
  by_cases hex : (treeHasDir t (parsePath l) || treeHasFile t (parsePath l)) = true
  · rw [if_pos hex]
    by_cases hf : env.deleteFails (parsePath l) = true
    · rw [if_pos hf]
    · rw [if_neg hf]
      by_cases hdir : treeHasDir t (parsePath l) = true
      · rw [if_pos hdir]
        exact tlookup_filter_path_keep (fun r => !(pfx (parsePath l) r))
          (by simp [hpf]) t
      · rw [if_neg hdir]
        have hne : p ≠ parsePath l := by
          intro he
          rw [he, pfx_refl] at hpf
          exact absurd hpf (by simp)
        exact tlookup_filter_path_keep (fun r => !(r == parsePath l))
          (by simp [hne]) t
  · rw [if_neg hex]

theorem deleteOne_none {env : ApplyEnv} {t : Tree} {l : String} {p : Path}
    (h : tlookup p t = none) :
    tlookup p (deleteOne env t l).1 = none := by
  unfold deleteOne
  by_cases hex : (treeHasDir t (parsePath l) || treeHasFile t (parsePath l)) = true
  · rw [if_pos hex]
    by_cases hf : env.deleteFails (parsePath l) = true
    · rw [if_pos hf]
      exact h
    · rw [if_neg hf]
      by_cases hdir : treeHasDir t (parsePath l) = true
      · rw [if_pos hdir]
        exact tlookup_filter_path_of_none (fun r => !(pfx (parsePath l) r)) h
      · rw [if_neg hdir]
        exact tlookup_filter_path_of_none (fun r => !(r == parsePath l)) h
  · rw [if_neg hex]
    exact h

theorem deletePhase_tree_cons (env : ApplyEnv) (l : String) (ls : List String)
    (t : Tree) :
    (deletePhase env (l :: ls) t).1 =
      (deletePhase env ls (deleteOne env t l).1).1 := rfl

theorem deletePhase_some {env : ApplyEnv} (hdel : ∀ q, env.deleteFails q = false) :
    ∀ (ls : List String) (t : Tree) {p : Path} {c : String},
      tlookup p (deletePhase env ls t).1 = some c →
      tlookup p t = some c ∧ ∀ l ∈ ls, pfx (parsePath l) p = false
  | [], t, p, c, h => ⟨h, by simp⟩
  | l :: ls, t, p, c, h => by
    rw [deletePhase_tree_cons] at h
    have ih := deletePhase_some hdel ls (deleteOne env t l).1 h
    have h1 := deleteOne_some hdel ih.1
    refine ⟨h1.1, ?_⟩
    intro l' hl'
    rcases List.mem_cons.mp hl' with rfl | hl'
    · exact h1.2
    · exact ih.2 l' hl'

theorem deletePhase_keep {env : ApplyEnv} :
    ∀ (ls : List String) (t : Tree) {p : Path},
      (∀ l ∈ ls, pfx (parsePath l) p = false) →
      tlookup p (deletePhase env ls t).1 = tlookup p t
  | [], _, _, _ => rfl
  | l :: ls, t, p, h => by
    rw [deletePhase_tree_cons]
    rw [deletePhase_keep ls _ (fun l' hl' => h l' (List.mem_cons_of_mem _ hl'))]
    exact deleteOne_keep (h l (List.mem_cons_self _ _))

theorem deletePhase_none {env : ApplyEnv} :
    ∀ (ls : List String) (t : Tree) {p : Path}, tlookup p t = none →
      tlookup p (deletePhase env ls t).1 = none
  | [], _, _, h => h
  | l :: ls, t, p, h => by
    rw [deletePhase_tree_cons]
    exact deletePhase_none ls _ (deleteOne_none h)

theorem walkGo_tree_pres {env : ApplyEnv} {p : Path} :
    ∀ (F : List (Path × String)) (i : Nat) (t : Tree) (ws : List String),
      p ∉ F.map Prod.fst →
      tlookup p (walkGo env F i t ws).2.1 = tlookup p t
  | [], _, _, _, _ => rfl
  | f :: rest, i, t, ws, hp => by
    have hp2 : p ≠ f.1 ∧ p ∉ rest.map Prod.fst := by
      simpa using hp
    rw [walkGo]
    by_cases hidx : env.walkFailIdx = some i
    · rw [if_pos hidx]
    · rw [if_neg hidx]
      by_cases hc : env.copyFails f.1 = true
      · rw [if_pos hc]
        exact walkGo_tree_pres rest _ _ _ hp2.2
      · rw [if_neg hc]
        rw [walkGo_tree_pres rest _ _ _ hp2.2]
        exact tlookup_setFileT_other hp2.1 t f.2

theorem walkGo_tree_indep {env : ApplyEnv} (hidx : env.walkFailIdx = none)
    (hcopy : ∀ q, env.copyFails q = false) {p : Path} :
    ∀ (F : List (Path × String)) (i i' : Nat) (t t' : Tree) (ws ws' : List String),
      p ∈ F.map Prod.fst →
      tlookup p (walkGo env F i t ws).2.1 = tlookup p (walkGo env F i' t' ws').2.1
  | [], _, _, _, _, _, _, hp => by simp at hp
  | f :: rest, i, i', t, t', ws, ws', hp => by
    rw [walkGo, walkGo, hidx, if_neg (by simp [hcopy]), if_neg (by simp [hcopy]),
      if_neg (by simp [hcopy]), if_neg (by simp [hcopy])]
    by_cases hpr : p ∈ rest.map Prod.fst
    · exact walkGo_tree_indep hidx hcopy rest _ _ _ _ _ _ hpr
    · have hpf : p = f.1 := by
        simp only [List.map_cons, List.mem_cons] at hp
        tauto
      rw [walkGo_tree_pres rest _ _ _ hpr, walkGo_tree_pres rest _ _ _ hpr]
      subst hpf
      rw [tlookup_setFileT_same, tlookup_setFileT_same]

/-! ### Warning-propagation lemmas -/

theorem walkGo_ws_mono {env : ApplyEnv} {w : String} :
    ∀ (F : List (Path × String)) (i : Nat) (t : Tree) (ws : List String),
      w ∈ ws → w ∈ (walkGo env F i t ws).2.2
  | [], _, _, _, hw => hw
  | f :: rest, i, t, ws, hw => by
    rw [walkGo]
    by_cases hidx : env.walkFailIdx = some i
    · rw [if_pos hidx]
      exact hw
    · rw [if_neg hidx]
      by_cases hc : env.copyFails f.1 = true
      · rw [if_pos hc]
        exact walkGo_ws_mono rest _ _ _ (List.mem_append_left _ hw)
      · rw [if_neg hc]
        exact walkGo_ws_mono rest _ _ _ hw

theorem walkGo_warn {env : ApplyEnv} (hidx : env.walkFailIdx = none) :
    ∀ (F : List (Path × String)) (i : Nat) (t : Tree) (ws : List String)
      (f : Path × String), f ∈ F → env.copyFails f.1 = true →
      ("更新文件复制失败 " ++ String.intercalate "/" f.1) ∈ (walkGo env F i t ws).2.2
  | [], _, _, _, _, hf, _ => by simp at hf
  | g :: rest, i, t, ws, f, hf, hc => by
    rw [walkGo, hidx, if_neg (by simp)]
    rcases List.mem_cons.mp hf with rfl | hf
    · rw [if_pos hc]
      exact walkGo_ws_mono rest _ _ _ (List.mem_append_right _ (by simp))
    · by_cases hg : env.copyFails g.1 = true
      · rw [if_pos hg]
        exact walkGo_warn hidx rest _ _ _ f hf hc
      · rw [if_neg hg]
        exact walkGo_warn hidx rest _ _ _ f hf hc

theorem deletePhase_pair_cons (env : ApplyEnv) (l : String) (ls : List String)
    (t : Tree) :
    deletePhase env (l :: ls) t =
      ((deletePhase env ls (deleteOne env t l).1).1,
        (deleteOne env t l).2 ++ (deletePhase env ls (deleteOne env t l).1).2) := rfl

theorem deleteOne_tree_all_fail {env : ApplyEnv}
    (hdel : ∀ q, env.deleteFails q = true) (t : Tree) (l : String) :
    (deleteOne env t l).1 = t := by
  unfold deleteOne
  by_cases hex : (treeHasDir t (parsePath l) || treeHasFile t (parsePath l)) = true
  · rw [if_pos hex, if_pos (hdel _)]
  · rw [if_neg hex]

theorem deleteOne_warn_all_fail {env : ApplyEnv}
    (hdel : ∀ q, env.deleteFails q = true) (t : Tree) (l : String)
    (hex : (treeHasDir t (parsePath l) || treeHasFile t (parsePath l)) = true) :
    (deleteOne env t l).2 = ["无用文件清理失败"] := by
  unfold deleteOne
  rw [if_pos hex, if_pos (hdel _)]

theorem deletePhase_all_fail {env : ApplyEnv}
    (hdel : ∀ q, env.deleteFails q = true) :
    ∀ (ls : List String) (t : Tree),
      (deletePhase env ls t).1 = t ∧
        ∀ l ∈ ls,
          (treeHasDir t (parsePath l) || treeHasFile t (parsePath l)) = true →
          "无用文件清理失败" ∈ (deletePhase env ls t).2
  | [], t => ⟨rfl, by simp⟩
  | l :: ls, t => by
    rw [deletePhase_pair_cons, deleteOne_tree_all_fail hdel t l]
    have ih := deletePhase_all_fail hdel ls t
    refine ⟨ih.1, ?_⟩
    intro l' hl' hex
    rcases List.mem_cons.mp hl' with rfl | hl'
    · rw [deleteOne_warn_all_fail hdel t l' hex]
      exact List.mem_append_left _ (by simp)
    · exact List.mem_append_right _ (ih.2 l' hl' hex)

/-! ### Lemmas on the fetcher -/

theorem download_ok (env : FetchEnv) (v : String) (hnet : env.netFails = false)
    (hdisk : check_disk_space env env.contentLength = true) :
    (download_update env v).1 = some ("Update_" ++ v ++ ".zip") := by
  unfold download_update
  rw [if_neg (by simp [hnet]), if_neg (by simp [hdisk])]

theorem download_stale_warn (env : FetchEnv) (v : String)
    (hst : env.staleExists = true) (hdf : env.staleDeleteFails = true) :
    "残留文件清理失败" ∈ (download_update env v).2 := by
  unfold download_update
  simp only [hst, hdf, Bool.and_self, if_true]
  split_ifs <;> simp

theorem download_fail_of_space (env : FetchEnv) (v : String)
    (hraise : env.diskCheckRaises = false)
    (hlow : env.freeSpace ≤ env.contentLength * 2) :
    (download_update env v).1 = none := by
  unfold download_update
  by_cases hnet : env.netFails = true
  · rw [if_pos hnet]
  · rw [if_neg hnet, if_pos (by
      unfold check_disk_space
      rw [if_neg (by simp [hraise])]
      simp
      omega)]

/-! ### The claims -/

/-- C1 (counterexample): as stated, the claim fails in the degenerate case
where the pre-apply marker already holds the target version: here staging
raises (so no walk ever runs), yet the rollback restore writes the backup
value "1.0", which equals the target version — the marker *is* written with
the target version during a failed invocation. -/
theorem claim_C1_counterexample :
    preCommitFailure ⟨"DEL.txt"⟩ { stagingFails := true } ⟨[]⟩ ∧
      (apply_update ⟨"DEL.txt"⟩ { stagingFails := true } ⟨[]⟩ "1.0"
        ⟨some "1.0", []⟩).ok = false ∧
      (apply_update ⟨"DEL.txt"⟩ { stagingFails := true } ⟨[]⟩ "1.0"
        ⟨some "1.0", []⟩).markerWrites = ["1.0"] :=
  ⟨Or.inl rfl, rfl, rfl⟩

/-- C1 (amended): if the overlay walk does not run to completion — an
exception in staging, extraction, the delete-list read, or the walk itself —
then every marker write of that invocation carries the pre-apply snapshot
value; in particular, when the snapshot differs from the target version, the
marker is never written with the target version. -/
theorem claim_C1 (cfg : Config) (env : ApplyEnv) (pkg : Package) (tv : String)
    (fs : FS) (hfail : preCommitFailure cfg env pkg)
    (hsnap : get_local_version fs ≠ some tv) :
    (∀ x ∈ (apply_update cfg env pkg tv fs).markerWrites,
        get_local_version fs = some x) ∧
      tv ∉ (apply_update cfg env pkg tv fs).markerWrites := by
  obtain ⟨fs1, ws1, heq⟩ := apply_fail_eq cfg env pkg tv fs (Or.inl hfail)
  rw [heq]
  refine ⟨applyFail_writes env (get_local_version fs) fs1 ws1, ?_⟩
  intro hmem
  exact hsnap (applyFail_writes env (get_local_version fs) fs1 ws1 tv hmem)

/-- Witness for C1 at a concrete input: staging fails with marker "0.9" and
target "1.0"; the target version is never written. -/
theorem claim_C1_witness :
    "1.0" ∉ (apply_update ⟨"DEL.txt"⟩ { stagingFails := true } ⟨[]⟩ "1.0"
      ⟨some "0.9", []⟩).markerWrites :=
  (claim_C1 ⟨"DEL.txt"⟩ { stagingFails := true } ⟨[]⟩ "1.0" ⟨some "0.9", []⟩
    (Or.inl rfl) (by decide)).2

/-- C2: `get_update_chain` returns exactly the subsequence of the published
list, in encounter order, of entries that parse and whose parsed value `v`
satisfies `current < v <= target` under the Python element-wise list order,
and an Invalid current or target yields the empty chain — which is what
`resolve_spec`, written from the spec's words, states. -/
theorem claim_C2 (cur tgt : String) (published : List String) :
    get_update_chain cur tgt published = resolve_spec cur tgt published :=
  get_update_chain_eq cur tgt published

/-- C3: whenever `apply_update` fails before the commit completes (staging,
extraction, delete-list read, the walk, or the marker write itself raises)
and the restore write is attempted and succeeds, the marker after the call
equals the value snapshotted at entry. -/
theorem claim_C3 (cfg : Config) (env : ApplyEnv) (pkg : Package) (tv : String)
    (fs : FS)
    (hfail : preCommitFailure cfg env pkg ∨ env.commitFails = true)
    (hres : env.restoreFails = false)
    (hsnap : (get_local_version fs).getD "" ≠ "") :
    (apply_update cfg env pkg tv fs).ok = false ∧
      (apply_update cfg env pkg tv fs).fs.marker = get_local_version fs := by
  have h := apply_rollback cfg env pkg tv fs hfail hres hsnap
  exact ⟨h.2, h.1⟩

/-- Witness for C3 at a concrete input: extraction fails with marker "1.0";
the marker is restored to the snapshot. -/
theorem claim_C3_witness :
    (apply_update ⟨"DEL.txt"⟩ { extractFails := true } ⟨[]⟩ "2.0"
        ⟨some "1.0", []⟩).ok = false ∧
      (apply_update ⟨"DEL.txt"⟩ { extractFails := true } ⟨[]⟩ "2.0"
        ⟨some "1.0", []⟩).fs.marker = get_local_version ⟨some "1.0", []⟩ :=
  claim_C3 ⟨"DEL.txt"⟩ { extractFails := true } ⟨[]⟩ "2.0" ⟨some "1.0", []⟩
    (Or.inl (Or.inr (Or.inl rfl))) rfl (by decide)

/-- C4: the orchestrator is non-transactional with best-effort forward
progress, for every update chain `pre ++ v :: rest` whose prefix `pre`
fetches and applies cleanly. If element `v`'s fetch fails, the run reports
failure, the attempted list is exactly `pre ++ [v]` (no fetch or apply for
any element of `rest`), and the state — the versions already committed
included — is left exactly as after the prefix, with no chain-level
rollback. If instead `v`'s apply hard-fails (with a working restore), the
run reports failure, again attempts exactly `pre ++ [v]`, and the marker is
restored to the snapshot read from the prefix's committed state. In
particular a 3-element chain that fails applying element 2 leaves the marker
equal to element 1's version with element 3 never attempted. -/
theorem claim_C4 (env : RunEnv) (pre : List String) (v : String)
    (rest : List String) (fs : FS) (v1 v2 v3 : String) (fs0 : FS)
    (hpre : ∀ u ∈ pre, ((download_update (env.fetch u) u).1).isSome = true ∧
      hardOk (env.applyE u)) :
    ((download_update (env.fetch v) v).1 = none →
      (run_chain env (pre ++ v :: rest) fs).1 = false ∧
      (run_chain env (pre ++ v :: rest) fs).2.2 = pre ++ [v] ∧
      (run_chain env (pre ++ v :: rest) fs).2.1 = applyChain env pre fs) ∧
    (((download_update (env.fetch v) v).1).isSome = true →
      preCommitFailure env.cfg (env.applyE v) (env.pkg v) →
      (env.applyE v).restoreFails = false →
      (run_chain env (pre ++ v :: rest) fs).1 = false ∧
      (run_chain env (pre ++ v :: rest) fs).2.2 = pre ++ [v] ∧
      ((get_local_version (applyChain env pre fs)).getD "" ≠ "" →
        (run_chain env (pre ++ v :: rest) fs).2.1.marker
          = get_local_version (applyChain env pre fs))) ∧
    (((download_update (env.fetch v1) v1).1).isSome = true →
      ((download_update (env.fetch v2) v2).1).isSome = true →
      hardOk (env.applyE v1) →
      preCommitFailure env.cfg (env.applyE v2) (env.pkg v2) →
      (env.applyE v2).restoreFails = false →
      pyStrip v1 = v1 → v1 ≠ "" →
      (run_chain env [v1, v2, v3] fs0).1 = false ∧
      (run_chain env [v1, v2, v3] fs0).2.2 = [v1, v2] ∧
      (run_chain env [v1, v2, v3] fs0).2.1.marker = some v1) := by
  refine ⟨?_, ?_, ?_⟩
  · intro hdl
    rw [run_chain_clean_head env pre (v :: rest) fs hpre]
    rw [run_chain_step_dlFail env v rest (applyChain env pre fs) hdl]
    exact ⟨rfl, rfl, rfl⟩
  · intro hdl hfailv hresv
    have hok : (apply_update env.cfg (env.applyE v) (env.pkg v) v
        (applyChain env pre fs)).ok = false := by
      obtain ⟨fs1, ws1, heq⟩ :=
        apply_fail_eq env.cfg (env.applyE v) (env.pkg v) v
          (applyChain env pre fs) (Or.inl hfailv)
      rw [heq]
      exact applyFail_ok _ _ _ _
    rw [run_chain_clean_head env pre (v :: rest) fs hpre]
    rw [run_chain_step_applyFail env v rest (applyChain env pre fs) hdl hok]
    refine ⟨rfl, rfl, ?_⟩
    intro htr
    exact (apply_rollback env.cfg (env.applyE v) (env.pkg v) v
      (applyChain env pre fs) (Or.inl hfailv) hresv htr).1
  · intro hdl1 hdl2 hok1 hfail2 hres2 hstrip hne
    have hp1 := apply_hardOk_parts env.cfg (env.applyE v1) (env.pkg v1) v1 fs0 hok1
    have hgl1 : get_local_version
        (apply_update env.cfg (env.applyE v1) (env.pkg v1) v1 fs0).fs
          = some v1 := by
      rw [get_local_version, hp1.2]
      simp [hstrip]
    have hroll := apply_rollback env.cfg (env.applyE v2) (env.pkg v2) v2
      (apply_update env.cfg (env.applyE v1) (env.pkg v1) v1 fs0).fs
      (Or.inl hfail2) hres2 (by rw [hgl1]; simpa using hne)
    rw [run_chain_step_ok env v1 [v2, v3] fs0 hdl1 hp1.1]
    rw [run_chain_step_applyFail env v2 [v3] _ hdl2 hroll.2]
    exact ⟨rfl, rfl, by rw [hroll.1, hgl1]⟩

/-- Witness for C4 at a concrete input: chain ["a", "b"] ++ "c" :: ["d"]
where applying "c" fails at staging; the run fails, attempts exactly
["a", "b", "c"] (never "d"), and the marker holds the snapshot of the state
that committed "a" then "b". -/
theorem claim_C4_witness :
    (run_chain ⟨⟨"DEL.txt"⟩, fun _ => { freeSpace := 100 },
        fun v => if v = "c" then { stagingFails := true } else { },
        fun _ => ⟨[]⟩⟩ (["a", "b"] ++ "c" :: ["d"]) ⟨some "0", []⟩).1 = false ∧
      (run_chain ⟨⟨"DEL.txt"⟩, fun _ => { freeSpace := 100 },
        fun v => if v = "c" then { stagingFails := true } else { },
        fun _ => ⟨[]⟩⟩ (["a", "b"] ++ "c" :: ["d"]) ⟨some "0", []⟩).2.2
        = ["a", "b"] ++ ["c"] ∧
      (run_chain ⟨⟨"DEL.txt"⟩, fun _ => { freeSpace := 100 },
        fun v => if v = "c" then { stagingFails := true } else { },
        fun _ => ⟨[]⟩⟩ (["a", "b"] ++ "c" :: ["d"]) ⟨some "0", []⟩).2.1.marker
        = get_local_version (applyChain ⟨⟨"DEL.txt"⟩, fun _ => { freeSpace := 100 },
            fun v => if v = "c" then { stagingFails := true } else { },
            fun _ => ⟨[]⟩⟩ ["a", "b"] ⟨some "0", []⟩) := by
  have h := (claim_C4 ⟨⟨"DEL.txt"⟩, fun _ => { freeSpace := 100 },
      fun v => if v = "c" then { stagingFails := true } else { },
      fun _ => ⟨[]⟩⟩ ["a", "b"] "c" ["d"] ⟨some "0", []⟩ "a" "b" "c"
      ⟨some "0", []⟩
    (by
      intro u hu
      rcases List.mem_cons.mp hu with rfl | hu
      · exact ⟨by decide, by decide, by decide, by decide, by decide, by decide⟩
      · rcases List.mem_cons.mp hu with rfl | hu
        · exact ⟨by decide, by decide, by decide, by decide, by decide, by decide⟩
        · simp at hu)).2.1 (by decide) (Or.inl (by decide)) (by decide)
  exact ⟨h.1, h.2.1, h.2.2 (by decide)⟩

/-- C5: applying the same package twice in succession to the same install
root (no intervening external change; the marker is modelled outside the
tree, so no delete-list entry can remove it) is idempotent: every path reads
the same after the second `apply_update` as after the first. -/
theorem claim_C5 (cfg : Config) (pkg : Package) (tv : String) (fs : FS)
    (p : Path) :
    tlookup p (apply_update cfg okApplyEnv pkg tv
        (apply_update cfg okApplyEnv pkg tv fs).fs).fs.tree
      = tlookup p (apply_update cfg okApplyEnv pkg tv fs).fs.tree := by
  have hok : hardOk okApplyEnv := ⟨rfl, rfl, rfl, rfl, rfl⟩
  have hidx : okApplyEnv.walkFailIdx = none := rfl
  have hcopy : ∀ q, okApplyEnv.copyFails q = false := fun _ => rfl
  have hdel : ∀ q, okApplyEnv.deleteFails q = false := fun _ => rfl
  rw [apply_hardOk_eq cfg okApplyEnv pkg tv fs hok]
  rw [apply_hardOk_eq cfg okApplyEnv pkg tv _ hok]
  by_cases hp : p ∈ (walkFiles cfg pkg).map Prod.fst
  · exact walkGo_tree_indep hidx hcopy (walkFiles cfg pkg) 0 0 _ _ [] [] hp
  · rw [walkGo_tree_pres (walkFiles cfg pkg) 0 _ [] hp,
      walkGo_tree_pres (walkFiles cfg pkg) 0 _ [] hp]
    cases hc : tlookup p (deletePhase okApplyEnv (applyDeleteLines cfg pkg)
        fs.tree).1 with
    | none =>
      rw [deletePhase_none (applyDeleteLines cfg pkg) _
        (by rw [walkGo_tree_pres (walkFiles cfg pkg) 0 _ [] hp, hc])]
    | some c =>
      have hcov := deletePhase_some hdel (applyDeleteLines cfg pkg) fs.tree hc
      rw [deletePhase_keep (applyDeleteLines cfg pkg) _ hcov.2,
        walkGo_tree_pres (walkFiles cfg pkg) 0 _ [] hp, hc]

/-- C6: per-file failures never abort: with no hard failure injected,
`apply_update` still returns success whatever the per-file delete/copy and
cleanup failures are, `download_update` still returns a path when only the
stale-package delete fails, and each such failure is recorded as its warning
in the warning list. -/
theorem claim_C6 (cfg : Config) (env : ApplyEnv) (fenv : FetchEnv)
    (pkg : Package) (tv v : String) (fs : FS)
    (h : hardOk env) (hnet : fenv.netFails = false)
    (hdisk : check_disk_space fenv fenv.contentLength = true) :
    (apply_update cfg env pkg tv fs).ok = true ∧
      ((download_update fenv v).1).isSome = true ∧
      (fenv.staleExists = true → fenv.staleDeleteFails = true →
        "残留文件清理失败" ∈ (download_update fenv v).2) ∧
      (env.cleanupFails = true →
        "临时文件清理失败" ∈ (apply_update cfg env pkg tv fs).warnings) ∧
      (∀ f ∈ walkFiles cfg pkg, env.copyFails f.1 = true →
        ("更新文件复制失败 " ++ String.intercalate "/" f.1)
          ∈ (apply_update cfg env pkg tv fs).warnings) ∧
      ((∀ q, env.deleteFails q = true) →
        ∀ l ∈ applyDeleteLines cfg pkg,
          (treeHasDir fs.tree (parsePath l) ||
            treeHasFile fs.tree (parsePath l)) = true →
          "无用文件清理失败" ∈ (apply_update cfg env pkg tv fs).warnings) := by
  rw [apply_hardOk_eq cfg env pkg tv fs h]
  refine ⟨rfl, ?_, ?_, ?_, ?_, ?_⟩
  · rw [download_ok fenv v hnet hdisk]
    rfl
  · intro h1 h2
    exact download_stale_warn fenv v h1 h2
  · intro hc
    refine List.mem_append_right _ ?_
    simp [cleanupWarn, hc]
  · intro f hf hcf
    exact List.mem_append_left _ (List.mem_append_right _
      (walkGo_warn h.2.2.2.1 (walkFiles cfg pkg) 0 _ [] f hf hcf))
  · intro hdel l hl hex
    exact List.mem_append_left _ (List.mem_append_left _
      ((deletePhase_all_fail hdel (applyDeleteLines cfg pkg) fs.tree).2 l hl hex))

/-- Witness for C6 at a concrete input: all per-file operations fail, the
apply still succeeds. -/
theorem claim_C6_witness :
    (apply_update ⟨"DEL.txt"⟩
        { deleteFails := fun _ => true, copyFails := fun _ => true,
          cleanupFails := true }
        ⟨[(["a.txt"], "A")]⟩ "1.1" ⟨some "1.0", []⟩).ok = true ∧
      ((download_update
        { freeSpace := 100, staleExists := true, staleDeleteFails := true }
        "1.1").1).isSome = true :=
  ⟨(claim_C6 ⟨"DEL.txt"⟩
      { deleteFails := fun _ => true, copyFails := fun _ => true,
        cleanupFails := true }
      { freeSpace := 100, staleExists := true, staleDeleteFails := true }
      ⟨[(["a.txt"], "A")]⟩ "1.1" "1.1" ⟨some "1.0", []⟩
      ⟨rfl, rfl, rfl, rfl, rfl⟩ rfl (by decide)).1,
    (claim_C6 ⟨"DEL.txt"⟩
      { deleteFails := fun _ => true, copyFails := fun _ => true,
        cleanupFails := true }
      { freeSpace := 100, staleExists := true, staleDeleteFails := true }
      ⟨[(["a.txt"], "A")]⟩ "1.1" "1.1" ⟨some "1.0", []⟩
      ⟨rfl, rfl, rfl, rfl, rfl⟩ rfl (by decide)).2.1⟩

/-- C7 (counterexample): `parse_version` does not confine segments to
non-negative integers: Python `int` accepts a sign, so "-1.2" parses to
`[-1, 2]`, which is neither Invalid nor a list of non-negative segments. -/
theorem claim_C7_counterexample :
    parse_version "-1.2" = [-1, 2] ∧
      ¬(∀ k ∈ parse_version "-1.2", (0 : Int) ≤ k) := by
  constructor
  · decide
  · decide

/-- C7 (amended): `parse_version` splits on '.' and parses every segment with
Python `int` semantics (optional sign allowed, so segments may be negative);
empty input or any segment that is not an integer literal yields Invalid
(the empty list); and an Invalid current, target, or published entry never
participates in a chain membership test in `get_update_chain`. -/
theorem claim_C7 :
    parse_version "" = [] ∧
      parse_version "1.x" = [] ∧
      parse_version "-1.2" = [-1, 2] ∧
      (∀ cur tgt vs, parse_version cur = [] ∨ parse_version tgt = [] →
        get_update_chain cur tgt vs = []) ∧
      (∀ cur tgt vs, ∀ v ∈ get_update_chain cur tgt vs,
        parse_version v ≠ []) := by
  refine ⟨by decide, by decide, by decide, ?_, ?_⟩
  · intro cur tgt vs h
    unfold get_update_chain
    rcases h with h | h <;> rw [h] <;> simp
  · intro cur tgt vs v hv
    exact (mem_get_update_chain hv).1

/-- Witness for C7 at a concrete input: an unparseable current version yields
the empty chain. -/
theorem claim_C7_witness :
    get_update_chain "x" "1.0" ["0.5", "1.0"] = [] :=
  claim_C7.2.2.2.1 "x" "1.0" ["0.5", "1.0"] (Or.inl (by decide))

/-- C8: `parse_version` is a left inverse of `format_version` on non-empty
segment lists, and the program's `<` on parsed versions is an irreflexive,
transitive, total strict order that coincides with element-wise (lexicographic)
integer comparison (`List.Lex`). -/
theorem claim_C8 :
    (∀ a : List Int, a ≠ [] → parse_version (format_version a) = a) ∧
      (∀ a : List Int, pyListLt a a = false) ∧
      (∀ a b c : List Int, pyListLt a b = true → pyListLt b c = true →
        pyListLt a c = true) ∧
      (∀ a b : List Int, a ≠ b →
        pyListLt a b = true ∨ pyListLt b a = true) ∧
      (∀ a b : List Int, pyListLt a b = true ↔
        List.Lex (fun x y : Int => x < y) a b) :=
  ⟨fun a _ => parse_format a, pyListLt_irrefl,
    fun _ _ _ => pyListLt_trans, pyListLt_total, pyListLt_iff_lex⟩

/-- Witness for C8 at concrete inputs: the round-trip at [1, 12, 3] and
totality at [1, 2] versus [1, 3]. -/
theorem claim_C8_witness :
    parse_version (format_version [1, 12, 3]) = [1, 12, 3] ∧
      (pyListLt [1, 2] [1, 3] = true ∨ pyListLt [1, 3] [1, 2] = true) :=
  ⟨claim_C8.1 [1, 12, 3] (by decide),
    claim_C8.2.2.2.1 [1, 2] [1, 3] (by decide)⟩

/-- C10: cross-length comparison is resolved without zero-padding: a proper
prefix compares strictly smaller, so `parse_version "1.2"` is strictly below
and not equal to `parse_version "1.2.0"`, and `get_update_chain`'s
membership test sees "1.2.0" as an upgrade over "1.2". -/
theorem claim_C10 :
    (∀ a b : List Int, pfx a b = true → a ≠ b → pyListLt a b = true) ∧
      parse_version "1.2" = [1, 2] ∧
      parse_version "1.2.0" = [1, 2, 0] ∧
      parse_version "1.2" ≠ parse_version "1.2.0" ∧
      pyListLt (parse_version "1.2") (parse_version "1.2.0") = true ∧
      get_update_chain "1.2" "1.2.0" ["1.2", "1.2.0"] = ["1.2.0"] :=
  ⟨fun _ _ h1 h2 => pfx_of_lt h1 h2, by decide, by decide, by decide,
    by decide, by decide⟩

/-- Witness for C10 at a concrete input: [1, 2] is a proper prefix of
[1, 2, 0] and compares strictly below it. -/
theorem claim_C10_witness : pyListLt [1, 2] [1, 2, 0] = true :=
  claim_C10.1 [1, 2] [1, 2, 0] (by decide) (by decide)

/-- C9: when a content length is reported, `download_update`'s disk-space
preflight requires free space strictly greater than twice the package size;
an insufficient preflight makes the download return failure, and that
failure aborts the remainder of the chain with no further attempts. -/
theorem claim_C9 (renv : RunEnv) (fenv : FetchEnv) (v : String)
    (rest : List String) (fs : FS)
    (hraise : fenv.diskCheckRaises = false)
    (hlow : fenv.freeSpace ≤ fenv.contentLength * 2)
    (hfe : renv.fetch v = fenv) :
    (∀ s, check_disk_space fenv s = decide (fenv.freeSpace > s * 2)) ∧
      check_disk_space fenv fenv.contentLength = false ∧
      (download_update fenv v).1 = none ∧
      run_chain renv (v :: rest) fs = (false, fs, [v]) := by
  have hcheck : ∀ s, check_disk_space fenv s = decide (fenv.freeSpace > s * 2) := by
    intro s
    unfold check_disk_space
    rw [if_neg (by simp [hraise])]
  have hdl := download_fail_of_space fenv v hraise hlow
  refine ⟨hcheck, ?_, hdl, run_chain_step_dlFail renv v rest fs (by rw [hfe]; exact hdl)⟩
  rw [hcheck]
  simp
  omega

/-- Witness for C9 at a concrete input: free space 10 against a reported
size 5 fails the preflight and stops a 2-element chain at its first
element. -/
theorem claim_C9_witness :
    run_chain ⟨⟨"DEL.txt"⟩, fun _ => { contentLength := 5, freeSpace := 10 },
        fun _ => { }, fun _ => ⟨[]⟩⟩ ["1.1", "1.2"] ⟨some "1.0", []⟩
      = (false, ⟨some "1.0", []⟩, ["1.1"]) :=
  (claim_C9 ⟨⟨"DEL.txt"⟩, fun _ => { contentLength := 5, freeSpace := 10 },
      fun _ => { }, fun _ => ⟨[]⟩⟩ { contentLength := 5, freeSpace := 10 }
    "1.1" ["1.2"] ⟨some "1.0", []⟩ rfl (by decide) rfl).2.2.2

end Updater
